import Mathlib

/-!
Verification development for the in-memory cache layer of the MonkkeyStore
repository (apps/web/src/lib/cache.ts): `SmartCache`, `CacheManager`,
`CachedQuery`.  The TypeScript classes are shallowly embedded as pure Lean
functions over explicit state.  The JS `Map` backing store is modelled as an
insertion-ordered association list (JS `Map` preserves insertion order and
`set` on an existing key keeps the entry's position); `Date.now()` is passed
explicitly as a `now : Nat` argument; `setInterval`-driven cleanup is modelled
by an explicit `cleanup` step.  JS numbers used as counters/timestamps are
modelled as `Nat`; the derived `hitRate` percentage is modelled exactly as a
rational.
-/

set_option maxRecDepth 4000

/-- Mirrors `CacheEntry<T>` from cache.ts. -/
structure CacheEntry (T : Type) where
  data : T
  timestamp : Nat
  ttl : Nat
  accessCount : Nat
  lastAccessed : Nat
  deriving DecidableEq, Repr

/-- Mirrors `CacheStats` from cache.ts.  `hitRate` is the exact rational value
of `hits / (hits + misses) * 100`. -/
structure CacheStats where
  hits : Nat
  misses : Nat
  sets : Nat
  deletes : Nat
  evictions : Nat
  totalSize : Nat
  hitRate : Rat
  deriving DecidableEq, Repr

/-- The `'lru' | 'lfu' | 'ttl'` union type of `CacheConfig.evictionPolicy`. -/
inductive EvictionPolicy where
  | lru
  | lfu
  | ttl
  deriving DecidableEq, Repr

/-- Mirrors `CacheConfig` from cache.ts. -/
structure CacheConfig where
  maxSize : Nat
  defaultTtl : Nat
  cleanupInterval : Nat
  evictionPolicy : EvictionPolicy
  deriving DecidableEq, Repr

/-- Lookup in an insertion-ordered association list; models `Map.get`. -/
def alGet (k : String) : List (String × α) → Option α
  | [] => none
  | p :: rest => if p.1 = k then some p.2 else alGet k rest

/-- Models `Map.has`. -/
def alHas (k : String) (m : List (String × α)) : Bool :=
  (alGet k m).isSome

/-- Models `Map.set`: replace in place if the key is present (JS `Map` keeps
the original insertion position), otherwise append at the end. -/
def alSet (k : String) (v : α) : List (String × α) → List (String × α)
  | [] => [(k, v)]
  | p :: rest => if p.1 = k then (k, v) :: rest else p :: alSet k v rest

/-- Models `Map.delete` (under the `Map` invariant that keys are unique,
removing every pair with the key equals removing the unique one). -/
def alDelete (k : String) (m : List (String × α)) : List (String × α) :=
  m.filter (fun p => decide (p.1 ≠ k))

/-- The JS `Map` invariant: stored keys are pairwise distinct. -/
def keysNodup (m : List (String × α)) : Prop :=
  (m.map Prod.fst).Nodup

instance (m : List (String × α)) : Decidable (keysNodup m) :=
  inferInstanceAs (Decidable (m.map Prod.fst).Nodup)

/-- Mirrors the `SmartCache<T>` instance state: the backing `Map`, the
mutable `stats` record and the constructor-supplied `config`. -/
structure SmartCache (T : Type) where
  cache : List (String × CacheEntry T)
  stats : CacheStats
  config : CacheConfig
  deriving DecidableEq, Repr

/-- A freshly constructed `SmartCache` (the constructor only stores the
config and starts the cleanup timer; all counters start at 0). -/
def SmartCache.empty (cfg : CacheConfig) : SmartCache T :=
  { cache := []
    stats := { hits := 0, misses := 0, sets := 0, deletes := 0,
               evictions := 0, totalSize := 0, hitRate := 0 }
    config := cfg }

/-- Mirrors `SmartCache.isExpired`: `Date.now() - entry.timestamp > entry.ttl`.
With `Nat` truncated subtraction this agrees with JS for all `ttl ≥ 0`. -/
def isExpired (now : Nat) (e : CacheEntry T) : Bool :=
  decide (now - e.timestamp > e.ttl)

/-- Mirrors `SmartCache.updateHitRate`. -/
def updateHitRate (s : CacheStats) : CacheStats :=
  let total := s.hits + s.misses
  { s with hitRate := if total > 0 then (s.hits : Rat) / (total : Rat) * 100 else 0 }

/-- Mirrors `SmartCache.get`.  Returns the JS return value (`none` = `null`)
together with the updated cache state. -/
def SmartCache.get (c : SmartCache T) (key : String) (now : Nat) :
    Option T × SmartCache T :=
  match alGet key c.cache with
  | none =>
      (none, { c with stats := updateHitRate { c.stats with misses := c.stats.misses + 1 } })
  | some entry =>
      if isExpired now entry then
        (none, { c with
                  cache := alDelete key c.cache
                  stats := updateHitRate { c.stats with
                    misses := c.stats.misses + 1
                    evictions := c.stats.evictions + 1 } })
      else
        (some entry.data,
         { c with
            cache := alSet key { entry with
                                  accessCount := entry.accessCount + 1
                                  lastAccessed := now } c.cache
            stats := updateHitRate { c.stats with hits := c.stats.hits + 1 } })

/-- The shared loop body of `findLeastRecentlyUsed` / `findLeastFrequentlyUsed`
/ `findNearestExpiry`: scan the entries keeping the first one whose measure
`f` is strictly below the best so far.  `bestVal = none` models the
`Infinity` initialisation of the source loops. -/
def minKeyLoop (f : α → Nat) (bestKey : String) (bestVal : Option Nat) :
    List (String × α) → String
  | [] => bestKey
  | p :: rest =>
      match bestVal with
      | none => minKeyLoop f p.1 (some (f p.2)) rest
      | some t =>
          if f p.2 < t then minKeyLoop f p.1 (some (f p.2)) rest
          else minKeyLoop f bestKey (some t) rest

/-- Mirrors `SmartCache.findLeastRecentlyUsed` (smallest `lastAccessed`). -/
def findLeastRecentlyUsed (m : List (String × CacheEntry T)) : String :=
  minKeyLoop (fun e => e.lastAccessed) "" none m

/-- Mirrors `SmartCache.findLeastFrequentlyUsed` (smallest `accessCount`). -/
def findLeastFrequentlyUsed (m : List (String × CacheEntry T)) : String :=
  minKeyLoop (fun e => e.accessCount) "" none m

/-- Mirrors `SmartCache.findNearestExpiry` (smallest `timestamp + ttl`). -/
def findNearestExpiry (m : List (String × CacheEntry T)) : String :=
  minKeyLoop (fun e => e.timestamp + e.ttl) "" none m

/-- The key `SmartCache.evictEntry` selects for the configured policy. -/
def evictKey (c : SmartCache T) : String :=
  match c.config.evictionPolicy with
  | .lru => findLeastRecentlyUsed c.cache
  | .lfu => findLeastFrequentlyUsed c.cache
  | .ttl => findNearestExpiry c.cache

/-- Mirrors `SmartCache.evictEntry`. -/
def SmartCache.evictEntry (c : SmartCache T) : SmartCache T :=
  if c.cache.length = 0 then c
  else
    let keyToEvict := evictKey c
    { c with
        cache := alDelete keyToEvict c.cache
        stats := { c.stats with
          evictions := c.stats.evictions + 1
          totalSize := (alDelete keyToEvict c.cache).length } }

/-- The entry TTL chosen by `set`: the JS expression
`ttl || this.config.defaultTtl`, under which both an omitted ttl and an
explicit ttl of `0` (falsy) fall back to the config default. -/
def entryTtlOf (cfg : CacheConfig) (ttl : Option Nat) : Nat :=
  match ttl with
  | some t => if t = 0 then cfg.defaultTtl else t
  | none => cfg.defaultTtl

/-- The fresh entry `set` builds. -/
def mkEntry (value : T) (cfg : CacheConfig) (ttl : Option Nat) (now : Nat) :
    CacheEntry T :=
  { data := value, timestamp := now, ttl := entryTtlOf cfg ttl,
    accessCount := 1, lastAccessed := now }

/-- Mirrors `SmartCache.set`: evict (per policy) when at capacity and the key
is new, then insert a fresh entry, bump `sets` and recompute `totalSize`. -/
def SmartCache.set (c : SmartCache T) (key : String) (value : T)
    (ttl : Option Nat) (now : Nat) : SmartCache T :=
  let c1 := if c.config.maxSize ≤ c.cache.length ∧ alHas key c.cache = false
            then c.evictEntry else c
  let newCache := alSet key (mkEntry value c.config ttl now) c1.cache
  { c1 with
      cache := newCache
      stats := { c1.stats with
        sets := c1.stats.sets + 1
        totalSize := newCache.length } }

/-- Mirrors `SmartCache.delete`. -/
def SmartCache.delete (c : SmartCache T) (key : String) :
    Bool × SmartCache T :=
  if alHas key c.cache then
    (true, { c with
              cache := alDelete key c.cache
              stats := { c.stats with
                deletes := c.stats.deletes + 1
                totalSize := (alDelete key c.cache).length } })
  else (false, c)

/-- Mirrors `SmartCache.has`: lazily purges an expired entry but touches no
statistics at all. -/
def SmartCache.has (c : SmartCache T) (key : String) (now : Nat) :
    Bool × SmartCache T :=
  match alGet key c.cache with
  | none => (false, c)
  | some entry =>
      if isExpired now entry then
        (false, { c with cache := alDelete key c.cache })
      else (true, c)

/-- Mirrors `SmartCache.clear`. -/
def SmartCache.clear (c : SmartCache T) : SmartCache T :=
  { c with cache := [], stats := { c.stats with totalSize := 0 } }

/-- Mirrors `SmartCache.keys`. -/
def SmartCache.keysList (c : SmartCache T) : List String :=
  c.cache.map Prod.fst

/-- Mirrors `SmartCache.size`. -/
def SmartCache.sizeN (c : SmartCache T) : Nat :=
  c.cache.length

/-- Mirrors `SmartCache.cleanup`: collect the expired keys, then for each one
delete it and bump `evictions`; finally recompute `totalSize`. -/
def SmartCache.cleanup (c : SmartCache T) (now : Nat) : SmartCache T :=
  let expiredKeys :=
    (c.cache.filter (fun p => decide (now - p.2.timestamp > p.2.ttl))).map Prod.fst
  let res := expiredKeys.foldl
    (fun (acc : List (String × CacheEntry T) × Nat) k =>
      (alDelete k acc.1, acc.2 + 1))
    (c.cache, c.stats.evictions)
  { c with
      cache := res.1
      stats := { c.stats with evictions := res.2, totalSize := res.1.length } }

/-- Mirrors the `Partial<CacheConfig>` argument of `CacheManager.getCache`:
each field optionally overrides the documented default. -/
structure ConfigOverride where
  maxSize : Option Nat := none
  defaultTtl : Option Nat := none
  cleanupInterval : Option Nat := none
  evictionPolicy : Option EvictionPolicy := none
  deriving DecidableEq, Repr

/-- The merged config `{ ...defaultConfig, ...config }` built by
`CacheManager.getCache` on first construction. -/
def mergeConfig (ov : ConfigOverride) : CacheConfig :=
  { maxSize := ov.maxSize.getD 1000
    defaultTtl := ov.defaultTtl.getD (5 * 60 * 1000)
    cleanupInterval := ov.cleanupInterval.getD (60 * 1000)
    evictionPolicy := ov.evictionPolicy.getD .lru }

/-- Mirrors `CacheManager.getCache`: the static registry is the explicit
`reg` association list; returns the (existing or newly constructed) cache
together with the updated registry. -/
def getCacheM (reg : List (String × SmartCache T)) (name : String)
    (config : Option ConfigOverride) : SmartCache T × List (String × SmartCache T) :=
  let reg' :=
    if alHas name reg then reg
    else alSet name (SmartCache.empty (mergeConfig (config.getD {}))) reg
  ((alGet name reg').getD (SmartCache.empty (mergeConfig (config.getD {}))), reg')

/-- Mirrors `CachedQuery.getWithCache` for a value type `T` that does not
contain the JS `null` value (the typical instantiation): the source's
`cached !== null` test is then exactly the `Option` match on the result of
`get`.  The loader `queryFn : Except E T` models the awaited promise (a
resolved value or a rejection); the third component of the result counts how
many times the loader was invoked. -/
def getWithCacheG (cacheKey : String) (c : SmartCache T)
    (queryFn : Except E T) (ttl : Option Nat) (now : Nat) :
    Except E T × SmartCache T × Nat :=
  match c.get cacheKey now with
  | (some v, c1) => (Except.ok v, c1, 0)
  | (none, c1) =>
      match queryFn with
      | Except.error e => (Except.error e, c1, 1)
      | Except.ok result => (Except.ok result, c1.set cacheKey result ttl now, 1)

/-- A miniature JS runtime value domain, used to model caches whose value
type itself admits `null` (e.g. `SmartCache<number | null>`). -/
inductive JSVal where
  | null
  | num (n : Int)
  | str (s : String)
  deriving DecidableEq, Repr

/-- The JS-level return value of `SmartCache.get` on a `JSVal` cache: a miss
returns `null`, a hit returns the stored datum (which may itself be `null`). -/
def jsGetVal (r : Option JSVal) : JSVal :=
  r.getD JSVal.null

/-- Mirrors `CachedQuery.getWithCache` at the JS value level for a cache whose
value type admits `null`: the source's `cached !== null` test compares the JS
value, so a stored `null` takes the miss path. -/
def getWithCacheJS (cacheKey : String) (c : SmartCache JSVal)
    (queryFn : Except E JSVal) (ttl : Option Nat) (now : Nat) :
    Except E JSVal × SmartCache JSVal × Nat :=
  let r := c.get cacheKey now
  let cached := jsGetVal r.1
  if cached ≠ JSVal.null then (Except.ok cached, r.2, 0)
  else
    match queryFn with
    | Except.error e => (Except.error e, r.2, 1)
    | Except.ok result => (Except.ok result, r.2.set cacheKey result ttl now, 1)

/-- Models `key.includes(pattern)` of JS: `pattern` occurs in `key` as a
contiguous substring. -/
def strIncludes (key pattern : String) : Bool :=
  decide (pattern.data <:+: key.data)

/-- Mirrors `CachedQuery.invalidatePattern`: snapshot the keys, delete every
key containing the pattern, counting each one. -/
def invalidatePattern (c : SmartCache T) (pattern : String) :
    Nat × SmartCache T :=
  c.keysList.foldl
    (fun (acc : Nat × SmartCache T) key =>
      if strIncludes key pattern then (acc.1 + 1, (acc.2.delete key).2)
      else acc)
    (0, c)

/-! ### Association-list lemmas -/

theorem alGet_alSet_self (k : String) (v : α) (m : List (String × α)) :
    alGet k (alSet k v m) = some v := by
  induction m with
  | nil => simp [alSet, alGet]
  | cons p rest ih =>
      by_cases h : p.1 = k
      · simp [alSet, h, alGet]
      · simp [alSet, h, alGet, ih]

theorem alDelete_cons (k : String) (p : String × α) (rest : List (String × α)) :
    alDelete k (p :: rest) =
      if p.1 = k then alDelete k rest else p :: alDelete k rest := by
  by_cases h : p.1 = k <;> simp [alDelete, List.filter_cons, h]

theorem alGet_alSet_ne (h : k' ≠ k) (v : α) (m : List (String × α)) :
    alGet k' (alSet k v m) = alGet k' m := by
  have hk : ¬ (k = k') := fun hh => h hh.symm
  induction m with
  | nil => simp [alSet, alGet, hk]
  | cons p rest ih =>
      by_cases hp : p.1 = k
      · simp [alSet, hp, alGet, hk]
      · simp [alSet, hp, alGet, ih]

theorem alGet_alDelete_self (k : String) (m : List (String × α)) :
    alGet k (alDelete k m) = none := by
  induction m with
  | nil => rfl
  | cons p rest ih =>
      rw [alDelete_cons]
      by_cases h : p.1 = k
      · rw [if_pos h]; exact ih
      · rw [if_neg h]
        simp [alGet, h, ih]

theorem alGet_alDelete_ne (h : k' ≠ k) (m : List (String × α)) :
    alGet k' (alDelete k m) = alGet k' m := by
  induction m with
  | nil => rfl
  | cons p rest ih =>
      rw [alDelete_cons]
      by_cases hp : p.1 = k
      · rw [if_pos hp]
        have hp' : ¬ (p.1 = k') := fun hh => h (hh.symm.trans hp)
        simp [alGet, hp', ih]
      · rw [if_neg hp]
        simp [alGet, ih]

theorem alGet_isSome_iff (k : String) (m : List (String × α)) :
    (alGet k m).isSome = true ↔ k ∈ m.map Prod.fst := by
  induction m with
  | nil => simp [alGet]
  | cons p rest ih =>
      by_cases h : p.1 = k
      · simp [alGet, h]
      · have h' : ¬ (k = p.1) := fun hh => h hh.symm
        simp [alGet, h, ih, h']

theorem alGet_eq_none_iff (k : String) (m : List (String × α)) :
    alGet k m = none ↔ k ∉ m.map Prod.fst := by
  rw [← alGet_isSome_iff]
  cases alGet k m <;> simp

theorem alGet_mem (h : alGet k m = some e) : (k, e) ∈ m := by
  induction m with
  | nil => simp [alGet] at h
  | cons p rest ih =>
      rw [show alGet k (p :: rest) = if p.1 = k then some p.2 else alGet k rest from rfl] at h
      by_cases hp : p.1 = k
      · rw [if_pos hp] at h
        obtain rfl : p.2 = e := Option.some.inj h
        exact List.mem_cons.2 (Or.inl (by rw [← hp]))
      · rw [if_neg hp] at h
        exact List.mem_cons.2 (Or.inr (ih h))

theorem alDelete_of_not_mem (h : k ∉ m.map Prod.fst) :
    alDelete k (m : List (String × α)) = m := by
  induction m with
  | nil => rfl
  | cons p rest ih =>
      simp only [List.map_cons, List.mem_cons, not_or] at h
      rw [alDelete_cons, if_neg (fun hh : p.1 = k => h.1 hh.symm), ih h.2]

theorem map_fst_alSet_present (h : k ∈ m.map Prod.fst) (v : α) :
    (alSet k v m).map Prod.fst = m.map Prod.fst := by
  induction m with
  | nil => simp at h
  | cons p rest ih =>
      by_cases hp : p.1 = k
      · simp [alSet, hp]
      · simp only [List.map_cons, List.mem_cons] at h
        rcases h with h | h
        · exact absurd h.symm hp
        · simp [alSet, hp, ih h]

theorem map_fst_alSet_absent (h : k ∉ m.map Prod.fst) (v : α) :
    (alSet k v m).map Prod.fst = m.map Prod.fst ++ [k] := by
  induction m with
  | nil => simp [alSet]
  | cons p rest ih =>
      simp only [List.map_cons, List.mem_cons, not_or] at h
      rw [show alSet k v (p :: rest) = if p.1 = k then (k, v) :: rest else p :: alSet k v rest from rfl]
      rw [if_neg (fun hh : p.1 = k => h.1 hh.symm)]
      simp [ih h.2]

theorem keysNodup_alSet {α : Type u} {m : List (String × α)} (hn : keysNodup m) (k : String) (v : α) :
    keysNodup (alSet k v m) := by
  by_cases h : k ∈ m.map Prod.fst
  · unfold keysNodup
    rw [map_fst_alSet_present h]
    exact hn
  · unfold keysNodup
    rw [map_fst_alSet_absent h]
    unfold keysNodup at hn
    refine List.Nodup.append hn (List.nodup_singleton k) ?_
    intro a ha hb
    simp only [List.mem_singleton] at hb
    exact h (hb ▸ ha)

theorem keysNodup_alDelete {α : Type u} {m : List (String × α)} (hn : keysNodup m) (k : String) :
    keysNodup (alDelete (α := α) k m) := by
  unfold keysNodup at hn ⊢
  exact List.Nodup.sublist (List.Sublist.map Prod.fst (List.filter_sublist m)) hn

/-! ### First-minimum characterization of the eviction scan -/

/-- The minimum measure over a list of entries (`none` for the empty list). -/
def minVal (f : α → Nat) : List (String × α) → Option Nat
  | [] => none
  | p :: rest =>
      match minVal f rest with
      | none => some (f p.2)
      | some b => some (min (f p.2) b)

/-- The key of the first entry (in iteration order) whose measure attains the
global minimum; the claim-level description of what the eviction scan picks. -/
def firstMinKey (f : α → Nat) (m : List (String × α)) : String :=
  match minVal f m with
  | none => ""
  | some mn => ((m.find? (fun p => decide (f p.2 = mn))).map Prod.fst).getD ""

theorem minVal_eq_none_iff (f : α → Nat) (m : List (String × α)) :
    minVal f m = none ↔ m = [] := by
  cases m with
  | nil => simp [minVal]
  | cons p rest =>
      simp only [minVal]
      cases minVal f rest <;> simp

theorem minVal_le (f : α → Nat) {m : List (String × α)}
    (h : minVal f m = some mn) : ∀ p ∈ m, mn ≤ f p.2 := by
  induction m generalizing mn with
  | nil => simp [minVal] at h
  | cons p rest ih =>
      intro q hq
      rcases List.mem_cons.1 hq with rfl | hq'
      · simp only [minVal] at h
        cases hr : minVal f rest with
        | none => rw [hr] at h; simp at h; omega
        | some b => rw [hr] at h; simp at h; omega
      · simp only [minVal] at h
        cases hr : minVal f rest with
        | none =>
            rw [(minVal_eq_none_iff f rest).1 hr] at hq'
            simp at hq'
        | some b =>
            rw [hr] at h
            simp at h
            have := ih hr q hq'
            omega

theorem minVal_mem (f : α → Nat) {m : List (String × α)}
    (h : minVal f m = some mn) : ∃ p ∈ m, f p.2 = mn := by
  induction m generalizing mn with
  | nil => simp [minVal] at h
  | cons p rest ih =>
      simp only [minVal] at h
      cases hr : minVal f rest with
      | none =>
          rw [hr] at h
          exact ⟨p, List.mem_cons_self _ _, by simpa using h⟩
      | some b =>
          rw [hr] at h
          simp only [Option.some.injEq] at h
          by_cases hc : f p.2 ≤ b
          · exact ⟨p, List.mem_cons_self _ _, by omega⟩
          · obtain ⟨q, hq, hfq⟩ := ih hr
            exact ⟨q, List.mem_cons_of_mem _ hq, by omega⟩

theorem firstMinKey_cons_none (f : α → Nat) (p : String × α)
    (h : minVal f rest = none) : firstMinKey f (p :: rest) = p.1 := by
  simp [firstMinKey, minVal, h, List.find?]

theorem firstMinKey_cons_le (f : α → Nat) (p : String × α)
    (h : minVal f rest = some b) (hle : f p.2 ≤ b) :
    firstMinKey f (p :: rest) = p.1 := by
  have hmin : min (f p.2) b = f p.2 := by omega
  simp [firstMinKey, minVal, h, hmin, List.find?]

theorem firstMinKey_cons_gt (f : α → Nat) (p : String × α)
    (h : minVal f rest = some b) (hgt : b < f p.2) :
    firstMinKey f (p :: rest) = firstMinKey f rest := by
  have hmin : min (f p.2) b = b := by omega
  have hne : ¬ (f p.2 = b) := by omega
  simp [firstMinKey, minVal, h, hmin, List.find?, hne]

/-- Characterization of the source's scan loop once a best value is held:
it returns the first key attaining the global minimum when that minimum
improves on the held value, and the held key otherwise. -/
theorem minKeyLoop_some_min (f : α → Nat) :
    ∀ (m : List (String × α)) (k : String) (v : Nat) (mn : Nat),
      minVal f m = some mn →
      minKeyLoop f k (some v) m = if mn < v then firstMinKey f m else k := by
  intro m
  induction m with
  | nil => intro k v mn h; simp [minVal] at h
  | cons p rest ih =>
      intro k v mn h
      have hL : minKeyLoop f k (some v) (p :: rest)
          = if f p.2 < v then minKeyLoop f p.1 (some (f p.2)) rest
            else minKeyLoop f k (some v) rest := rfl
      rw [hL]
      cases hr : minVal f rest with
      | none =>
          obtain rfl := (minVal_eq_none_iff f rest).1 hr
          have hmn : mn = f p.2 := by
            simp only [minVal] at h
            exact (Option.some.inj h).symm
          subst hmn
          have hfmk : firstMinKey f [p] = p.1 := by
            simp [firstMinKey, minVal, List.find?]
          by_cases hc : f p.2 < v
          · rw [if_pos hc, if_pos hc, hfmk]
            rfl
          · rw [if_neg hc, if_neg hc]
            rfl
      | some b =>
          have hmn : mn = min (f p.2) b := by
            simp only [minVal, hr] at h
            exact (Option.some.inj h).symm
          subst hmn
          by_cases hpb : f p.2 ≤ b
          · have hmin : min (f p.2) b = f p.2 := by omega
            rw [hmin]
            have hfmk := firstMinKey_cons_le f p hr hpb
            by_cases hc : f p.2 < v
            · rw [if_pos hc, if_pos hc, hfmk, ih p.1 (f p.2) b hr,
                 if_neg (by omega)]
            · rw [if_neg hc, if_neg hc, ih k v b hr, if_neg (by omega)]
          · have hmin : min (f p.2) b = b := by omega
            rw [hmin]
            have hfmk := firstMinKey_cons_gt f p hr (by omega)
            by_cases hc : f p.2 < v
            · rw [if_pos hc, hfmk, ih p.1 (f p.2) b hr, if_pos (by omega),
                 if_pos (by omega)]
            · rw [if_neg hc, hfmk, ih k v b hr]

/-- The full scan (started with the `Infinity` sentinel) picks the first key
attaining the global minimum of the measure `f`. -/
theorem minKeyLoop_eq_firstMinKey (f : α → Nat) (m : List (String × α))
    (h : m ≠ []) : minKeyLoop f "" none m = firstMinKey f m := by
  cases m with
  | nil => exact absurd rfl h
  | cons p rest =>
      have hL : minKeyLoop f "" none (p :: rest)
          = minKeyLoop f p.1 (some (f p.2)) rest := rfl
      rw [hL]
      cases hr : minVal f rest with
      | none =>
          obtain rfl := (minVal_eq_none_iff f rest).1 hr
          have hfmk : firstMinKey f [p] = p.1 := by
            simp [firstMinKey, minVal, List.find?]
          rw [hfmk]
          rfl
      | some b =>
          by_cases hpb : f p.2 ≤ b
          · rw [minKeyLoop_some_min f rest p.1 (f p.2) b hr, if_neg (by omega),
               firstMinKey_cons_le f p hr hpb]
          · rw [minKeyLoop_some_min f rest p.1 (f p.2) b hr, if_pos (by omega),
               firstMinKey_cons_gt f p hr (by omega)]

/-- A successful `find?` splits the list at the first element satisfying the
predicate, with the predicate false on everything before it. -/
theorem find?_decomp {q : α → Bool} :
    ∀ {m : List α} {x : α}, m.find? q = some x →
      ∃ pre post, m = pre ++ x :: post ∧ (∀ y ∈ pre, q y = false) ∧ q x = true := by
  intro m
  induction m with
  | nil => intro x h; simp at h
  | cons p rest ih =>
      intro x h
      cases hp : q p with
      | true =>
          simp only [List.find?_cons, hp] at h
          obtain rfl := Option.some.inj h
          exact ⟨[], rest, rfl, by simp, hp⟩
      | false =>
          simp only [List.find?_cons, hp] at h
          obtain ⟨pre, post, hsplit, hpre, hx⟩ := ih h
          refine ⟨p :: pre, post, by rw [hsplit]; rfl, ?_, hx⟩
          intro y hy
          rcases List.mem_cons.1 hy with rfl | hy'
          · exact hp
          · exact hpre y hy'

/-- `firstMinKey` names a genuine entry: the list splits at it, its measure is
a global minimum, and every earlier entry has a strictly larger measure. -/
theorem firstMinKey_spec (f : α → Nat) {m : List (String × α)} (h : m ≠ []) :
    ∃ e pre post, m = pre ++ (firstMinKey f m, e) :: post ∧
      (∀ p ∈ m, f e ≤ f p.2) ∧ (∀ p ∈ pre, f e < f p.2) := by
  obtain ⟨mn, hmn⟩ : ∃ mn, minVal f m = some mn := by
    cases hv : minVal f m with
    | none => exact absurd ((minVal_eq_none_iff f m).1 hv) h
    | some mn => exact ⟨mn, rfl⟩
  obtain ⟨p0, hp0, hfp0⟩ := minVal_mem f hmn
  obtain ⟨x, hx⟩ : ∃ x, m.find? (fun p => decide (f p.2 = mn)) = some x := by
    cases hf : m.find? (fun p => decide (f p.2 = mn)) with
    | none =>
        have := List.find?_eq_none.1 hf p0 hp0
        simp [hfp0] at this
    | some x => exact ⟨x, rfl⟩
  have hkey : firstMinKey f m = x.1 := by
    simp [firstMinKey, hmn, hx]
  obtain ⟨pre, post, hsplit, hpre, hqx⟩ := find?_decomp hx
  have hfx : f x.2 = mn := by simpa using hqx
  refine ⟨x.2, pre, post, ?_, ?_, ?_⟩
  · rw [hkey, hsplit]
  · intro p hp
    rw [hfx]
    exact minVal_le f hmn p hp
  · intro p hp
    have hne : ¬ (f p.2 = mn) := by simpa using hpre p hp
    have hle : mn ≤ f p.2 := minVal_le f hmn p (by rw [hsplit]; exact List.mem_append_left _ hp)
    rw [hfx]
    omega

/-- The chosen key is one of the stored keys. -/
theorem firstMinKey_mem (f : α → Nat) {m : List (String × α)} (h : m ≠ []) :
    firstMinKey f m ∈ m.map Prod.fst := by
  obtain ⟨e, pre, post, hsplit, -, -⟩ := firstMinKey_spec f h
  have hm : (firstMinKey f m, e) ∈ pre ++ (firstMinKey f m, e) :: post :=
    List.mem_append_right _ (List.mem_cons_self _ _)
  rw [← hsplit] at hm
  exact List.mem_map.2 ⟨(firstMinKey f m, e), hm, rfl⟩

/-- The entry measure minimized by each eviction policy. -/
def policyMeasure : EvictionPolicy → CacheEntry T → Nat
  | .lru => fun e => e.lastAccessed
  | .lfu => fun e => e.accessCount
  | .ttl => fun e => e.timestamp + e.ttl

/-- For every policy, `evictEntry`'s scan picks the first key attaining the
globally smallest policy measure. -/
theorem evictKey_eq_firstMinKey (c : SmartCache T) (h : c.cache ≠ []) :
    evictKey c = firstMinKey (policyMeasure c.config.evictionPolicy) c.cache := by
  cases hp : c.config.evictionPolicy with
  | lru =>
      rw [show evictKey c = findLeastRecentlyUsed c.cache from by rw [evictKey, hp]]
      exact minKeyLoop_eq_firstMinKey _ _ h
  | lfu =>
      rw [show evictKey c = findLeastFrequentlyUsed c.cache from by rw [evictKey, hp]]
      exact minKeyLoop_eq_firstMinKey _ _ h
  | ttl =>
      rw [show evictKey c = findNearestExpiry c.cache from by rw [evictKey, hp]]
      exact minKeyLoop_eq_firstMinKey _ _ h

/-! ### Unfolding lemmas for `set`, `evictEntry`, `delete` -/

theorem evictEntry_cache (c : SmartCache T) (h : c.cache ≠ []) :
    c.evictEntry.cache = alDelete (evictKey c) c.cache := by
  have hlen : ¬ (c.cache.length = 0) := by simpa using h
  rw [SmartCache.evictEntry, if_neg hlen]

theorem evictEntry_evictions (c : SmartCache T) (h : c.cache ≠ []) :
    c.evictEntry.stats.evictions = c.stats.evictions + 1 := by
  have hlen : ¬ (c.cache.length = 0) := by simpa using h
  rw [SmartCache.evictEntry, if_neg hlen]

theorem evictEntry_config (c : SmartCache T) :
    c.evictEntry.config = c.config := by
  rw [SmartCache.evictEntry]
  split <;> rfl

theorem set_evicting (c : SmartCache T) (key : String) (value : T)
    (ttl : Option Nat) (now : Nat)
    (hcap : c.config.maxSize ≤ c.cache.length) (hhas : alHas key c.cache = false) :
    c.set key value ttl now =
      { c.evictEntry with
          cache := alSet key (mkEntry value c.config ttl now) c.evictEntry.cache
          stats := { c.evictEntry.stats with
            sets := c.evictEntry.stats.sets + 1
            totalSize := (alSet key (mkEntry value c.config ttl now) c.evictEntry.cache).length } } := by
  simp only [SmartCache.set]
  rw [if_pos ⟨hcap, hhas⟩]

theorem set_not_evicting (c : SmartCache T) (key : String) (value : T)
    (ttl : Option Nat) (now : Nat)
    (h : ¬ (c.config.maxSize ≤ c.cache.length ∧ alHas key c.cache = false)) :
    c.set key value ttl now =
      { c with
          cache := alSet key (mkEntry value c.config ttl now) c.cache
          stats := { c.stats with
            sets := c.stats.sets + 1
            totalSize := (alSet key (mkEntry value c.config ttl now) c.cache).length } } := by
  simp only [SmartCache.set]
  rw [if_neg h]

theorem set_config (c : SmartCache T) (key : String) (value : T)
    (ttl : Option Nat) (now : Nat) :
    (c.set key value ttl now).config = c.config := by
  simp only [SmartCache.set]
  split
  · rw [evictEntry_config]
  · rfl

/-! ### C1: eviction-policy correctness -/

/-- Scenario A config: `maxSize = 2`, LRU. -/
def exC1cfg : CacheConfig :=
  { maxSize := 2, defaultTtl := 1000, cleanupInterval := 60000,
    evictionPolicy := .lru }

/-- Scenario A states: `set(a,1)` at t=0, `set(b,2)` at t=1, `get(a)` at t=2,
`set(c,3)` at t=3. -/
def exC1c2 : SmartCache Nat :=
  ((SmartCache.empty exC1cfg).set "a" 1 none 0).set "b" 2 none 1

def exC1c3 : SmartCache Nat := (exC1c2.get "a" 2).2

def exC1c4 : SmartCache Nat := exC1c3.set "c" 3 none 3

/-- C1: at capacity, a `set` of a fresh key first evicts the entry with the
globally smallest policy measure (`lastAccessed` for lru, `accessCount` for
lfu, `timestamp + ttl` for ttl), ties broken by first iteration order (the
evicted key splits the store with all strictly-smaller-measure entries absent
and all earlier entries strictly larger), then inserts the new entry; and
concretely, scenario A (maxSize=2, lru, set a, set b, get a, set c) evicts
`b`, keeps `a = 1`, and stores `c = 3`. -/
theorem evict_policy_first_min :
    (∀ (T : Type) (c : SmartCache T) (key : String) (value : T)
        (ttl : Option Nat) (now : Nat),
      c.cache ≠ [] →
      c.config.maxSize ≤ c.cache.length →
      alHas key c.cache = false →
      ∃ (e : CacheEntry T) (pre post : List (String × CacheEntry T)),
        c.cache = pre ++ (evictKey c, e) :: post ∧
        (∀ p ∈ c.cache, policyMeasure c.config.evictionPolicy e ≤
            policyMeasure c.config.evictionPolicy p.2) ∧
        (∀ p ∈ pre, policyMeasure c.config.evictionPolicy e <
            policyMeasure c.config.evictionPolicy p.2) ∧
        (c.set key value ttl now).cache =
          alSet key (mkEntry value c.config ttl now) (alDelete (evictKey c) c.cache) ∧
        (c.set key value ttl now).stats.evictions = c.stats.evictions + 1) ∧
    ((exC1c4.get "a" 4).1 = some 1 ∧ (exC1c4.get "b" 4).1 = none ∧
      (exC1c4.get "c" 4).1 = some 3 ∧ alGet "b" exC1c4.cache = none ∧
      exC1c4.stats.evictions = 1) := by
  constructor
  · intro T c key value ttl now hne hcap hhas
    obtain ⟨e, pre, post, hsplit, hmin, hpre⟩ :=
      firstMinKey_spec (policyMeasure c.config.evictionPolicy) hne
    rw [← evictKey_eq_firstMinKey c hne] at hsplit
    refine ⟨e, pre, post, hsplit, hmin, hpre, ?_, ?_⟩
    · rw [set_evicting c key value ttl now hcap hhas]
      simp only
      rw [evictEntry_cache c hne]
    · rw [set_evicting c key value ttl now hcap hhas]
      simp only
      rw [evictEntry_evictions c hne]
  · refine ⟨by decide, by decide, by decide, by decide, by decide⟩

/-- Witness for C1: the general statement applied to the concrete scenario-A
state just before the third `set` (two entries, at capacity, key `c` fresh). -/
theorem evict_policy_first_min_witness :
    ∃ (e : CacheEntry Nat) (pre post : List (String × CacheEntry Nat)),
      exC1c3.cache = pre ++ (evictKey exC1c3, e) :: post ∧
      (∀ p ∈ exC1c3.cache, policyMeasure exC1c3.config.evictionPolicy e ≤
          policyMeasure exC1c3.config.evictionPolicy p.2) ∧
      (∀ p ∈ pre, policyMeasure exC1c3.config.evictionPolicy e <
          policyMeasure exC1c3.config.evictionPolicy p.2) ∧
      (exC1c3.set "c" 3 none 3).cache =
        alSet "c" (mkEntry 3 exC1c3.config none 3) (alDelete (evictKey exC1c3) exC1c3.cache) ∧
      (exC1c3.set "c" 3 none 3).stats.evictions = exC1c3.stats.evictions + 1 :=
  evict_policy_first_min.1 Nat exC1c3 "c" 3 none 3 (by decide) (by decide) (by decide)

/-! ### Length and key-set lemmas -/

theorem alHas_iff (k : String) (m : List (String × α)) :
    alHas k m = true ↔ k ∈ m.map Prod.fst := by
  rw [alHas]
  exact alGet_isSome_iff k m

theorem length_alSet_present (h : k ∈ m.map Prod.fst) (v : α) :
    (alSet k v m).length = m.length := by
  have := congrArg List.length (map_fst_alSet_present h v)
  simpa using this

theorem length_alSet_absent (h : k ∉ m.map Prod.fst) (v : α) :
    (alSet k v m).length = m.length + 1 := by
  have := congrArg List.length (map_fst_alSet_absent h v)
  simpa using this

theorem length_alDelete {m : List (String × α)} (hn : keysNodup m)
    (h : k ∈ m.map Prod.fst) : (alDelete k m).length + 1 = m.length := by
  induction m with
  | nil => simp at h
  | cons p rest ih =>
      unfold keysNodup at hn
      simp only [List.map_cons, List.nodup_cons] at hn
      rw [alDelete_cons]
      by_cases hp : p.1 = k
      · rw [if_pos hp]
        have hnot : k ∉ rest.map Prod.fst := by rw [← hp]; exact hn.1
        rw [alDelete_of_not_mem hnot]
        simp
      · rw [if_neg hp]
        simp only [List.map_cons, List.mem_cons] at h
        rcases h with h | h
        · exact absurd h.symm hp
        · have := ih hn.2 h
          simp only [List.length_cons]
          omega

/-! ### C2: capacity invariant -/

/-- A degenerate config with `maxSize = 0`, on which the unrestricted claim
fails. -/
def exC2cfg0 : CacheConfig :=
  { maxSize := 0, defaultTtl := 1000, cleanupInterval := 1,
    evictionPolicy := .lru }

/-- Counterexample to C2 as stated: with `maxSize = 0`, a single `set` on a
fresh cache leaves `size() = 1 > 0 = maxSize` (the eviction step finds an
empty store and evicts nothing, then inserts). -/
theorem capacity_invariant_cex :
    ¬ (((SmartCache.empty exC2cfg0 : SmartCache Nat).set "a" 1 none 0).sizeN ≤
        exC2cfg0.maxSize) := by decide

/-- One `set` preserves key distinctness, the capacity bound and the config
(for `maxSize ≥ 1`). -/
theorem set_preserves_inv (c : SmartCache T) (key : String) (value : T)
    (ttl : Option Nat) (now : Nat) (hmax : 1 ≤ c.config.maxSize)
    (hn : keysNodup c.cache) (hlen : c.cache.length ≤ c.config.maxSize) :
    keysNodup (c.set key value ttl now).cache ∧
      (c.set key value ttl now).cache.length ≤ c.config.maxSize := by
  by_cases hcond : c.config.maxSize ≤ c.cache.length ∧ alHas key c.cache = false
  · obtain ⟨hcap, hhas⟩ := hcond
    have hne : c.cache ≠ [] := by
      intro hnil
      rw [hnil] at hcap
      simp at hcap
      omega
    have hkey : key ∉ c.cache.map Prod.fst := by
      intro hk
      rw [← alHas_iff] at hk
      rw [hk] at hhas
      simp at hhas
    have hev : evictKey c ∈ c.cache.map Prod.fst := by
      rw [evictKey_eq_firstMinKey c hne]
      exact firstMinKey_mem _ hne
    rw [set_evicting c key value ttl now hcap hhas]
    simp only
    rw [evictEntry_cache c hne]
    have hnd : keysNodup (alDelete (evictKey c) c.cache) := keysNodup_alDelete hn _
    have hkd : key ∉ (alDelete (evictKey c) c.cache).map Prod.fst := by
      intro hk
      rcases List.mem_map.1 hk with ⟨q, hq, hfq⟩
      exact hkey (List.mem_map.2 ⟨q, List.mem_of_mem_filter hq, hfq⟩)
    constructor
    · exact keysNodup_alSet hnd key _
    · rw [length_alSet_absent hkd]
      have := length_alDelete hn hev
      omega
  · rw [set_not_evicting c key value ttl now hcond]
    simp only
    constructor
    · exact keysNodup_alSet hn key _
    · by_cases hk : key ∈ c.cache.map Prod.fst
      · rw [length_alSet_present hk]
        exact hlen
      · rw [length_alSet_absent hk]
        have : ¬ (c.config.maxSize ≤ c.cache.length) := by
          intro hc
          exact hcond ⟨hc, by rw [← Bool.not_eq_true, alHas_iff]; exact hk⟩
        omega

/-- A finite sequence of `set` calls, each with its own key, value, optional
ttl and clock reading. -/
def applySets (c : SmartCache T) : List (String × T × Option Nat × Nat) → SmartCache T
  | [] => c
  | op :: rest => applySets (c.set op.1 op.2.1 op.2.2.1 op.2.2.2) rest

theorem applySets_inv (ops : List (String × T × Option Nat × Nat)) :
    ∀ (c : SmartCache T), 1 ≤ c.config.maxSize → keysNodup c.cache →
      c.cache.length ≤ c.config.maxSize →
      keysNodup (applySets c ops).cache ∧
        (applySets c ops).config = c.config ∧
        (applySets c ops).cache.length ≤ c.config.maxSize := by
  induction ops with
  | nil => intro c _ hn hlen; exact ⟨hn, rfl, hlen⟩
  | cons op rest ih =>
      intro c hmax hn hlen
      obtain ⟨hn', hlen'⟩ := set_preserves_inv c op.1 op.2.1 op.2.2.1 op.2.2.2 hmax hn hlen
      have hcfg := set_config c op.1 op.2.1 op.2.2.1 op.2.2.2
      obtain ⟨h1, h2, h3⟩ := ih (c.set op.1 op.2.1 op.2.2.1 op.2.2.2)
        (by rw [hcfg]; exact hmax) hn' (by rw [hcfg]; exact hlen')
      exact ⟨h1, by rw [show applySets (c.set op.1 op.2.1 op.2.2.1 op.2.2.2) rest
                        = applySets c (op :: rest) from rfl] at h2
                    rw [h2, hcfg],
             by rw [show applySets (c.set op.1 op.2.1 op.2.2.1 op.2.2.2) rest
                        = applySets c (op :: rest) from rfl] at h3
                rw [hcfg] at h3
                exact h3⟩

/-- C2 (amended: requires `maxSize ≥ 1`; with `maxSize = 0` a single set
already exceeds capacity, see the counterexample): starting from an empty
cache, after any finite sequence of `set` calls `size() ≤ maxSize`; a `set`
whose key is already in the backing map never evicts (eviction counter and
key set are unchanged); a `set` of a new key at capacity (distinct keys)
evicts exactly one present entry before inserting, leaving the entry count
unchanged. -/
theorem capacity_invariant_amended :
    (∀ (T : Type) (cfg : CacheConfig) (ops : List (String × T × Option Nat × Nat)),
      1 ≤ cfg.maxSize →
      (applySets (SmartCache.empty cfg) ops).sizeN ≤ cfg.maxSize) ∧
    (∀ (T : Type) (c : SmartCache T) (key : String) (value : T)
        (ttl : Option Nat) (now : Nat),
      alHas key c.cache = true →
      (c.set key value ttl now).stats.evictions = c.stats.evictions ∧
      (c.set key value ttl now).cache.map Prod.fst = c.cache.map Prod.fst) ∧
    (∀ (T : Type) (c : SmartCache T) (key : String) (value : T)
        (ttl : Option Nat) (now : Nat),
      1 ≤ c.config.maxSize → keysNodup c.cache →
      alHas key c.cache = false → c.config.maxSize ≤ c.cache.length →
      ∃ k0, alHas k0 c.cache = true ∧
        (c.set key value ttl now).cache =
          alSet key (mkEntry value c.config ttl now) (alDelete k0 c.cache) ∧
        (c.set key value ttl now).stats.evictions = c.stats.evictions + 1 ∧
        (c.set key value ttl now).cache.length = c.cache.length) := by
  refine ⟨?_, ?_, ?_⟩
  · intro T cfg ops hmax
    have h := applySets_inv ops (SmartCache.empty cfg) (by exact hmax)
      (by simp [SmartCache.empty, keysNodup]) (by simp [SmartCache.empty])
    exact h.2.2
  · intro T c key value ttl now hhas
    have hcond : ¬ (c.config.maxSize ≤ c.cache.length ∧ alHas key c.cache = false) := by
      intro hc
      rw [hhas] at hc
      simp at hc
    rw [set_not_evicting c key value ttl now hcond]
    exact ⟨rfl, map_fst_alSet_present ((alHas_iff key c.cache).1 hhas) _⟩
  · intro T c key value ttl now hmax hn hhas hcap
    have hne : c.cache ≠ [] := by
      intro hnil
      rw [hnil] at hcap
      simp at hcap
      omega
    have hev : evictKey c ∈ c.cache.map Prod.fst := by
      rw [evictKey_eq_firstMinKey c hne]
      exact firstMinKey_mem _ hne
    have hkey : key ∉ c.cache.map Prod.fst := by
      intro hk
      rw [← alHas_iff] at hk
      rw [hk] at hhas
      simp at hhas
    refine ⟨evictKey c, (alHas_iff _ _).2 hev, ?_, ?_, ?_⟩
    · rw [set_evicting c key value ttl now hcap hhas]
      simp only
      rw [evictEntry_cache c hne]
    · rw [set_evicting c key value ttl now hcap hhas]
      simp only
      rw [evictEntry_evictions c hne]
    · rw [set_evicting c key value ttl now hcap hhas]
      simp only
      rw [evictEntry_cache c hne]
      have hkd : key ∉ (alDelete (evictKey c) c.cache).map Prod.fst := by
        intro hk
        rcases List.mem_map.1 hk with ⟨q, hq, hfq⟩
        exact hkey (List.mem_map.2 ⟨q, List.mem_of_mem_filter hq, hfq⟩)
      rw [length_alSet_absent hkd]
      have := length_alDelete hn hev
      omega

/-- Witness for C2: the amended invariant evaluated on a concrete run —
maxSize 2, four sets with a repeated key — and the one-eviction clause at the
concrete scenario-A state. -/
theorem capacity_invariant_amended_witness :
    (applySets (SmartCache.empty exC1cfg : SmartCache Nat)
      [("a", 1, none, 0), ("b", 2, none, 1), ("a", 5, none, 2), ("c", 3, none, 3)]).sizeN ≤
      exC1cfg.maxSize ∧
    ∃ k0, alHas k0 exC1c3.cache = true ∧
      (exC1c3.set "c" 3 none 3).cache =
        alSet "c" (mkEntry 3 exC1c3.config none 3) (alDelete k0 exC1c3.cache) ∧
      (exC1c3.set "c" 3 none 3).stats.evictions = exC1c3.stats.evictions + 1 ∧
      (exC1c3.set "c" 3 none 3).cache.length = exC1c3.cache.length :=
  ⟨capacity_invariant_amended.1 Nat exC1cfg _ (by decide),
   capacity_invariant_amended.2.2 Nat exC1c3 "c" 3 none 3 (by decide) (by decide)
     (by decide) (by decide)⟩

/-! ### Unfolding lemmas for `get` and `has` -/

theorem get_eq_absent {c : SmartCache T} (now : Nat)
    (h : alGet key c.cache = none) :
    c.get key now =
      (none, { c with stats := updateHitRate { c.stats with misses := c.stats.misses + 1 } }) := by
  simp only [SmartCache.get, h]

theorem get_eq_expired {c : SmartCache T} {e : CacheEntry T}
    (h : alGet key c.cache = some e) (hexp : isExpired now e = true) :
    c.get key now =
      (none, { c with
                cache := alDelete key c.cache
                stats := updateHitRate { c.stats with
                  misses := c.stats.misses + 1
                  evictions := c.stats.evictions + 1 } }) := by
  simp only [SmartCache.get, h, hexp]
  rfl

theorem get_eq_live {c : SmartCache T} {e : CacheEntry T}
    (h : alGet key c.cache = some e) (hexp : isExpired now e = false) :
    c.get key now =
      (some e.data,
       { c with
          cache := alSet key { e with
                                accessCount := e.accessCount + 1
                                lastAccessed := now } c.cache
          stats := updateHitRate { c.stats with hits := c.stats.hits + 1 } }) := by
  simp only [SmartCache.get, h, hexp]
  rfl

theorem has_eq_absent {c : SmartCache T} (now : Nat)
    (h : alGet key c.cache = none) :
    c.has key now = (false, c) := by
  simp only [SmartCache.has, h]

theorem has_eq_expired {c : SmartCache T} {e : CacheEntry T}
    (h : alGet key c.cache = some e) (hexp : isExpired now e = true) :
    c.has key now = (false, { c with cache := alDelete key c.cache }) := by
  simp only [SmartCache.has, h, hexp]
  rfl

theorem has_eq_live {c : SmartCache T} {e : CacheEntry T}
    (h : alGet key c.cache = some e) (hexp : isExpired now e = false) :
    c.has key now = (true, c) := by
  simp only [SmartCache.has, h, hexp]
  rfl

/-! ### C3: expired `get` evicts exactly once -/

/-- A cache holding one entry written at t=0 with ttl 3 (expired at t=5). -/
def exC3c : SmartCache Nat :=
  (SmartCache.empty { maxSize := 10, defaultTtl := 1000, cleanupInterval := 1,
                      evictionPolicy := .lru }).set "k" 7 (some 3) 0

/-- C3: a `get` on an expired entry returns absent, removes the entry, and
records one miss and exactly one eviction; any later `get` on the same key is
a plain miss that leaves the eviction counter unchanged. -/
theorem get_expired_single_eviction :
    ∀ (T : Type) (c : SmartCache T) (key : String) (e : CacheEntry T)
      (now now' : Nat),
      alGet key c.cache = some e → isExpired now e = true →
      (c.get key now).1 = none ∧
      (c.get key now).2.cache = alDelete key c.cache ∧
      (c.get key now).2.stats.misses = c.stats.misses + 1 ∧
      (c.get key now).2.stats.evictions = c.stats.evictions + 1 ∧
      ((c.get key now).2.get key now').1 = none ∧
      ((c.get key now).2.get key now').2.stats.misses =
        (c.get key now).2.stats.misses + 1 ∧
      ((c.get key now).2.get key now').2.stats.evictions =
        (c.get key now).2.stats.evictions := by
  intro T c key e now now' h hexp
  rw [get_eq_expired h hexp]
  have habs : alGet key (alDelete key c.cache) = none := alGet_alDelete_self key c.cache
  rw [get_eq_absent now' habs]
  exact ⟨rfl, rfl, rfl, rfl, rfl, rfl, rfl⟩

/-- Witness for C3 at a concrete expired entry (`ttl = 3`, written at t=0,
read at t=5). -/
theorem get_expired_single_eviction_witness :
    ((exC3c.get "k" 5).1 = none ∧
     (exC3c.get "k" 5).2.cache = alDelete "k" exC3c.cache ∧
     (exC3c.get "k" 5).2.stats.misses = exC3c.stats.misses + 1 ∧
     (exC3c.get "k" 5).2.stats.evictions = exC3c.stats.evictions + 1 ∧
     ((exC3c.get "k" 5).2.get "k" 9).1 = none ∧
     ((exC3c.get "k" 5).2.get "k" 9).2.stats.misses =
       (exC3c.get "k" 5).2.stats.misses + 1 ∧
     ((exC3c.get "k" 5).2.get "k" 9).2.stats.evictions =
       (exC3c.get "k" 5).2.stats.evictions) :=
  get_expired_single_eviction Nat exC3c "k" (mkEntry 7 exC3c.config (some 3) 0)
    5 9 (by decide) (by decide)

/-! ### Cleanup-sweep lemmas -/

theorem foldPair_split (ks : List String) :
    ∀ (m : List (String × α)) (n : Nat),
      ks.foldl (fun (acc : List (String × α) × Nat) k => (alDelete k acc.1, acc.2 + 1)) (m, n) =
        (ks.foldl (fun m k => alDelete k m) m, n + ks.length) := by
  induction ks with
  | nil => intro m n; simp
  | cons k ks ih =>
      intro m n
      rw [List.foldl_cons, List.foldl_cons, ih]
      refine congrArg (Prod.mk _) ?_
      simp only [List.length_cons]
      omega

theorem foldDeleteAll (ks : List String) :
    ∀ (m : List (String × α)),
      ks.foldl (fun m k => alDelete k m) m =
        m.filter (fun p => decide (p.1 ∉ ks)) := by
  induction ks with
  | nil =>
      intro m
      simp
  | cons k ks ih =>
      intro m
      rw [List.foldl_cons, ih (alDelete k m), alDelete, List.filter_filter]
      refine List.filter_congr ?_
      intro p _
      by_cases h1 : p.1 ∈ ks <;> by_cases h2 : p.1 = k <;>
        simp [h1, h2]

theorem key_inj {m : List (String × α)} (hn : keysNodup m)
    (hp : p ∈ m) (hq : q ∈ m) (hk : p.1 = q.1) : p = q := by
  unfold keysNodup at hn
  induction m with
  | nil => simp at hp
  | cons x rest ih =>
      simp only [List.map_cons, List.nodup_cons] at hn
      rcases List.mem_cons.1 hp with rfl | hp' <;>
        rcases List.mem_cons.1 hq with rfl | hq'
      · rfl
      · exact absurd (List.mem_map.2 ⟨q, hq', hk.symm⟩) hn.1
      · exact absurd (List.mem_map.2 ⟨p, hp', hk⟩) hn.1
      · exact ih hn.2 hp' hq'

theorem cleanup_evictions (c : SmartCache T) (now : Nat) :
    (c.cleanup now).stats.evictions =
      c.stats.evictions +
        (c.cache.filter (fun p => isExpired now p.2)).length := by
  simp only [SmartCache.cleanup, foldPair_split]
  rw [show (fun (p : String × CacheEntry T) => decide (now - p.2.timestamp > p.2.ttl)) =
        (fun p => isExpired now p.2) from rfl]
  simp

theorem cleanup_cache (c : SmartCache T) (now : Nat) (hn : keysNodup c.cache) :
    (c.cleanup now).cache = c.cache.filter (fun p => !(isExpired now p.2)) := by
  simp only [SmartCache.cleanup, foldPair_split]
  rw [foldDeleteAll]
  refine List.filter_congr ?_
  intro p hp
  rw [show (fun (q : String × CacheEntry T) => decide (now - q.2.timestamp > q.2.ttl)) =
        (fun q => isExpired now q.2) from rfl]
  by_cases hx : isExpired now p.2 = true
  · have hmem : p.1 ∈ (c.cache.filter (fun q => isExpired now q.2)).map Prod.fst :=
      List.mem_map.2 ⟨p, List.mem_filter.2 ⟨hp, hx⟩, rfl⟩
    simp [hmem, hx]
  · have hnot : p.1 ∉ (c.cache.filter (fun q => isExpired now q.2)).map Prod.fst := by
      intro hc
      rcases List.mem_map.1 hc with ⟨q, hq, hfq⟩
      obtain ⟨hqm, hqx⟩ := List.mem_filter.1 hq
      obtain rfl := key_inj hn hqm hp hfq
      exact hx hqx
    simp [hnot, hx]

theorem cleanup_totalSize (c : SmartCache T) (now : Nat) :
    (c.cleanup now).stats.totalSize = (c.cleanup now).cache.length := by
  simp only [SmartCache.cleanup]

/-! ### C4: eviction accounting across the three removal paths -/

/-- A cache holding one entry written at t=0 with ttl 3 (expired at t=5). -/
def exC4c : SmartCache Nat :=
  (SmartCache.empty { maxSize := 10, defaultTtl := 1000, cleanupInterval := 1,
                      evictionPolicy := .lru }).set "k" 7 (some 3) 0

/-- Counterexample to C4 as stated: when `has` is the path that discovers an
expired entry, the entry is removed but the `evictions` counter is not
incremented at all (the claim requires exactly one increment on every
removal path). -/
theorem expiry_paths_cex :
    alGet "k" exC4c.cache = some (mkEntry 7 exC4c.config (some 3) 0) ∧
    isExpired 5 (mkEntry 7 exC4c.config (some 3) 0) = true ∧
    alGet "k" ((exC4c.has "k" 5).2).cache = none ∧
    ((exC4c.has "k" 5).2).stats.evictions = exC4c.stats.evictions := by decide

/-- C4 (amended): an expired entry is removed at most once, and the
`evictions` counter is incremented exactly once when the removing path is
`get` or the cleanup sweep, but zero times when it is `has` (which leaves all
statistics untouched); once a key is absent, further `get`/`has` calls on it
change no eviction count and remove nothing. -/
theorem expiry_paths_amended :
    (∀ (T : Type) (c : SmartCache T) (key : String) (e : CacheEntry T) (now : Nat),
      alGet key c.cache = some e → isExpired now e = true →
      (c.get key now).2.cache = alDelete key c.cache ∧
      (c.get key now).2.stats.evictions = c.stats.evictions + 1) ∧
    (∀ (T : Type) (c : SmartCache T) (key : String) (e : CacheEntry T) (now : Nat),
      alGet key c.cache = some e → isExpired now e = true →
      (c.has key now).2.cache = alDelete key c.cache ∧
      (c.has key now).2.stats = c.stats) ∧
    (∀ (T : Type) (c : SmartCache T) (now : Nat),
      keysNodup c.cache →
      (c.cleanup now).cache = c.cache.filter (fun p => !(isExpired now p.2)) ∧
      (c.cleanup now).stats.evictions =
        c.stats.evictions + (c.cache.filter (fun p => isExpired now p.2)).length) ∧
    (∀ (T : Type) (c : SmartCache T) (key : String) (now : Nat),
      alGet key c.cache = none →
      (c.get key now).2.stats.evictions = c.stats.evictions ∧
      (c.get key now).2.cache = c.cache ∧
      (c.has key now).2 = c) := by
  refine ⟨?_, ?_, ?_, ?_⟩
  · intro T c key e now h hexp
    rw [get_eq_expired h hexp]
    exact ⟨rfl, rfl⟩
  · intro T c key e now h hexp
    rw [has_eq_expired h hexp]
    exact ⟨rfl, rfl⟩
  · intro T c now hn
    exact ⟨cleanup_cache c now hn, cleanup_evictions c now⟩
  · intro T c key now h
    rw [get_eq_absent now h, has_eq_absent now h]
    exact ⟨rfl, rfl, rfl⟩

/-- Witness for C4: all four removal-path clauses instantiated at the
concrete expired-entry cache. -/
theorem expiry_paths_amended_witness :
    ((exC4c.get "k" 5).2.cache = alDelete "k" exC4c.cache ∧
     (exC4c.get "k" 5).2.stats.evictions = exC4c.stats.evictions + 1) ∧
    ((exC4c.has "k" 5).2.cache = alDelete "k" exC4c.cache ∧
     (exC4c.has "k" 5).2.stats = exC4c.stats) ∧
    ((exC4c.cleanup 5).cache = exC4c.cache.filter (fun p => !(isExpired 5 p.2)) ∧
     (exC4c.cleanup 5).stats.evictions =
       exC4c.stats.evictions + (exC4c.cache.filter (fun p => isExpired 5 p.2)).length) ∧
    (((exC4c.get "missing" 5).2).stats.evictions = exC4c.stats.evictions ∧
     ((exC4c.get "missing" 5).2).cache = exC4c.cache ∧
     ((exC4c.has "missing" 5).2) = exC4c) :=
  ⟨expiry_paths_amended.1 Nat exC4c "k" (mkEntry 7 exC4c.config (some 3) 0) 5
     (by decide) (by decide),
   expiry_paths_amended.2.1 Nat exC4c "k" (mkEntry 7 exC4c.config (some 3) 0) 5
     (by decide) (by decide),
   expiry_paths_amended.2.2.1 Nat exC4c 5 (by decide),
   expiry_paths_amended.2.2.2 Nat exC4c "missing" 5 (by decide)⟩

/-! ### Unfolding lemmas for `getWithCacheG` -/

theorem gwc_eq_hit {c : SmartCache T} {w : T}
    (h : (c.get key now).1 = some w) (q : Except E T) (ttl : Option Nat) :
    getWithCacheG key c q ttl now = (Except.ok w, (c.get key now).2, 0) := by
  cases hg : c.get key now with
  | mk r c1 =>
      rw [hg] at h
      simp only at h
      subst h
      simp [getWithCacheG, hg]

theorem gwc_eq_miss_ok {c : SmartCache T} (v : T)
    (h : (c.get key now).1 = none) (ttl : Option Nat) :
    getWithCacheG (E := E) key c (Except.ok v) ttl now =
      (Except.ok v, (c.get key now).2.set key v ttl now, 1) := by
  cases hg : c.get key now with
  | mk r c1 =>
      rw [hg] at h
      simp only at h
      subst h
      simp [getWithCacheG, hg]

theorem gwc_eq_miss_err {c : SmartCache T} (err : E)
    (h : (c.get key now).1 = none) (ttl : Option Nat) :
    getWithCacheG key c (Except.error err) ttl now =
      (Except.error err, (c.get key now).2, 1) := by
  cases hg : c.get key now with
  | mk r c1 =>
      rw [hg] at h
      simp only at h
      subst h
      simp [getWithCacheG, hg]

/-- After any `set`, looking the key up yields exactly the fresh entry. -/
theorem set_alGet_self (c : SmartCache T) (key : String) (value : T)
    (ttl : Option Nat) (now : Nat) :
    alGet key (c.set key value ttl now).cache =
      some (mkEntry value c.config ttl now) := by
  simp only [SmartCache.set]
  exact alGet_alSet_self key _ _

/-- `get` at a live entry reports the stored datum. -/
theorem get_fst_live {c : SmartCache T} {e : CacheEntry T}
    (h : alGet key c.cache = some e) (hexp : isExpired now e = false) :
    (c.get key now).1 = some e.data := by
  rw [get_eq_live h hexp]


/-- `get` never changes the configuration. -/
theorem get_config (c : SmartCache T) (key : String) (now : Nat) :
    (c.get key now).2.config = c.config := by
  cases h : alGet key c.cache with
  | none => rw [get_eq_absent now h]
  | some e =>
      cases hexp : isExpired now e with
      | false => rw [get_eq_live h hexp]
      | true => rw [get_eq_expired h hexp]

/-! ### C5: cache-aside read-through -/

/-- Config for the C5 scenario: default TTL 500ms. -/
def exC5cfg : CacheConfig :=
  { maxSize := 10, defaultTtl := 500, cleanupInterval := 1,
    evictionPolicy := .lru }

/-- Counterexample to C5 as stated: an explicit `ttl = 0` is falsy in the
source's `ttl || this.config.defaultTtl`, so the entry is stored with the
cache default (500) instead of the given ttl 0. -/
theorem getWithCache_ttl_cex :
    ((alGet "k" (getWithCacheG (E := Unit) "k"
        (SmartCache.empty exC5cfg : SmartCache Nat)
        (Except.ok 42) (some 0) 0).2.1.cache).map (fun e => e.ttl)) = some 500 ∧
    (0 : Nat) ≠ 500 := by decide

/-- C5 (amended: an explicit ttl of `0` is treated like an omitted ttl and
falls back to the cache default, per `entryTtlOf`): on a present, unexpired
entry `getWithCache` returns the cached value without invoking the loader;
on a miss it invokes the loader exactly once, stores the result under the key
with ttl `entryTtlOf` (the given ttl when nonzero, else the default), and
returns it; a second call within that TTL returns the same value without
invoking the loader again. -/
theorem getWithCache_hit_miss_amended :
    (∀ (T E : Type) (c : SmartCache T) (key : String) (e : CacheEntry T)
        (q : Except E T) (ttl : Option Nat) (now : Nat),
      alGet key c.cache = some e → isExpired now e = false →
      getWithCacheG key c q ttl now = (Except.ok e.data, (c.get key now).2, 0)) ∧
    (∀ (T E : Type) (c : SmartCache T) (key : String) (v : T)
        (ttl : Option Nat) (now : Nat),
      (c.get key now).1 = none →
      (getWithCacheG (E := E) key c (Except.ok v) ttl now).1 = Except.ok v ∧
      (getWithCacheG (E := E) key c (Except.ok v) ttl now).2.2 = 1 ∧
      alGet key (getWithCacheG (E := E) key c (Except.ok v) ttl now).2.1.cache =
        some (mkEntry v c.config ttl now)) ∧
    (∀ (T E : Type) (c : SmartCache T) (key : String) (v : T)
        (ttl : Option Nat) (now now' : Nat) (q2 : Except E T) (ttl2 : Option Nat),
      (c.get key now).1 = none →
      now' - now ≤ entryTtlOf c.config ttl →
      getWithCacheG key ((getWithCacheG (E := E) key c (Except.ok v) ttl now).2.1)
          q2 ttl2 now' =
        (Except.ok v,
         (((getWithCacheG (E := E) key c (Except.ok v) ttl now).2.1).get key now').2,
         0)) := by
  refine ⟨?_, ?_, ?_⟩
  · intro T E c key e q ttl now h hexp
    exact gwc_eq_hit (get_fst_live h hexp) q ttl
  · intro T E c key v ttl now hmiss
    rw [gwc_eq_miss_ok v hmiss ttl]
    refine ⟨rfl, rfl, ?_⟩
    simp only
    rw [set_alGet_self, get_config]
  · intro T E c key v ttl now now' q2 ttl2 hmiss httl
    rw [gwc_eq_miss_ok v hmiss ttl]
    simp only
    have hal : alGet key (((c.get key now).2).set key v ttl now).cache =
        some (mkEntry v c.config ttl now) := by
      rw [set_alGet_self, get_config]
    have hexp : isExpired now' (mkEntry v c.config ttl now) = false := by
      simp only [isExpired, mkEntry, decide_eq_false_iff_not, not_lt]
      exact httl
    exact gwc_eq_hit (get_fst_live hal hexp) q2 ttl2

/-- Witness for C5: a cold cache, loader returning 42, ttl 50, read back at
t=30; plus the hit clause at the populated state. -/
theorem getWithCache_hit_miss_amended_witness :
    ((getWithCacheG (E := Unit) "p1" (SmartCache.empty exC5cfg : SmartCache Nat)
        (Except.ok 42) (some 50) 0).1 = Except.ok 42 ∧
     (getWithCacheG (E := Unit) "p1" (SmartCache.empty exC5cfg : SmartCache Nat)
        (Except.ok 42) (some 50) 0).2.2 = 1 ∧
     alGet "p1" (getWithCacheG (E := Unit) "p1"
        (SmartCache.empty exC5cfg : SmartCache Nat)
        (Except.ok 42) (some 50) 0).2.1.cache =
       some (mkEntry 42 (SmartCache.empty exC5cfg : SmartCache Nat).config (some 50) 0)) ∧
    (getWithCacheG (E := Unit) "p1" ((getWithCacheG (E := Unit) "p1"
        (SmartCache.empty exC5cfg : SmartCache Nat)
        (Except.ok 42) (some 50) 0).2.1) (Except.ok 7) none 30 =
      (Except.ok 42,
       (((getWithCacheG (E := Unit) "p1" (SmartCache.empty exC5cfg : SmartCache Nat)
          (Except.ok 42) (some 50) 0).2.1).get "p1" 30).2,
       0)) :=
  ⟨getWithCache_hit_miss_amended.2.1 Nat Unit (SmartCache.empty exC5cfg) "p1" 42
     (some 50) 0 (by decide),
   getWithCache_hit_miss_amended.2.2 Nat Unit (SmartCache.empty exC5cfg) "p1" 42
     (some 50) 0 30 (Except.ok 7) none (by decide) (by decide)⟩

/-! ### C6: loader failure propagation -/

/-- C6: on a miss, a rejecting loader's error is returned unmodified, the
loader having been invoked once, and the cache is exactly the post-miss
state — nothing is stored. -/
theorem getWithCache_error_propagation :
    ∀ (T E : Type) (c : SmartCache T) (key : String) (err : E)
      (ttl : Option Nat) (now : Nat),
      (c.get key now).1 = none →
      getWithCacheG key c (Except.error err) ttl now =
        (Except.error err, (c.get key now).2, 1) ∧
      (getWithCacheG key c (Except.error err) ttl now).2.1.cache =
        (c.get key now).2.cache := by
  intro T E c key err ttl now h
  have heq := gwc_eq_miss_err err h ttl
  exact ⟨heq, by rw [heq]⟩

/-- Witness for C6: a cold cache and a loader rejecting with a string error. -/
theorem getWithCache_error_propagation_witness :
    getWithCacheG "p1" (SmartCache.empty exC5cfg : SmartCache Nat)
        (Except.error "db down") none 0 =
      (Except.error "db down",
       ((SmartCache.empty exC5cfg : SmartCache Nat).get "p1" 0).2, 1) ∧
    (getWithCacheG "p1" (SmartCache.empty exC5cfg : SmartCache Nat)
        (Except.error "db down") none 0).2.1.cache =
      ((SmartCache.empty exC5cfg : SmartCache Nat).get "p1" 0).2.cache :=
  getWithCache_error_propagation Nat String (SmartCache.empty exC5cfg) "p1"
    "db down" none 0 (by decide)

/-! ### C7: pattern invalidation -/

/-- `delete` always leaves the backing store equal to `alDelete` (a miss
deletes nothing, and `alDelete` of an absent key is the identity). -/
theorem delete_cache (c : SmartCache T) (key : String) :
    (c.delete key).2.cache = alDelete key c.cache := by
  rw [SmartCache.delete]
  by_cases h : alHas key c.cache
  · rw [if_pos h]
  · rw [if_neg h]
    have : key ∉ c.cache.map Prod.fst := by
      intro hk
      exact h ((alHas_iff key c.cache).2 hk)
    rw [alDelete_of_not_mem this]

theorem invalidateLoop_cache (pattern : String) :
    ∀ (ks : List String) (n : Nat) (c : SmartCache T),
      ((ks.foldl (fun (acc : Nat × SmartCache T) key =>
          if strIncludes key pattern then (acc.1 + 1, (acc.2.delete key).2)
          else acc) (n, c)).2).cache =
        ks.foldl (fun m k => if strIncludes k pattern then alDelete k m else m) c.cache := by
  intro ks
  induction ks with
  | nil => intro n c; rfl
  | cons k ks ih =>
      intro n c
      rw [List.foldl_cons, List.foldl_cons]
      by_cases hs : strIncludes k pattern
      · rw [if_pos hs, if_pos hs, ih]
        rw [delete_cache]
      · rw [if_neg hs, if_neg hs, ih]

theorem invalidateLoop_count (pattern : String) :
    ∀ (ks : List String) (n : Nat) (c : SmartCache T),
      (ks.foldl (fun (acc : Nat × SmartCache T) key =>
          if strIncludes key pattern then (acc.1 + 1, (acc.2.delete key).2)
          else acc) (n, c)).1 =
        n + (ks.filter (fun k => strIncludes k pattern)).length := by
  intro ks
  induction ks with
  | nil => intro n c; simp
  | cons k ks ih =>
      intro n c
      rw [List.foldl_cons, List.filter_cons]
      by_cases hs : strIncludes k pattern
      · rw [if_pos hs, if_pos hs, ih]
        simp only [List.length_cons]
        omega
      · rw [if_neg hs, if_neg hs, ih]

theorem foldIfDelete (q : String → Bool) :
    ∀ (ks : List String) (m : List (String × α)),
      ks.foldl (fun m k => if q k then alDelete k m else m) m =
        (ks.filter q).foldl (fun m k => alDelete k m) m := by
  intro ks
  induction ks with
  | nil => intro m; rfl
  | cons k ks ih =>
      intro m
      rw [List.foldl_cons, List.filter_cons]
      by_cases hs : q k
      · rw [if_pos hs, hs, ih]
        rfl
      · rw [if_neg hs]
        simp only [hs]
        exact ih m

theorem length_filter_map_fst (q : String → Bool) (m : List (String × α)) :
    ((m.map Prod.fst).filter q).length = (m.filter (fun p => q p.1)).length := by
  induction m with
  | nil => rfl
  | cons p rest ih =>
      rw [List.map_cons, List.filter_cons, List.filter_cons]
      by_cases hq : q p.1
      · simp [hq, ih]
      · simp [hq, ih]

/-- Scenario D cache: keys product:1, product:2, customer:9. -/
def exC7c : SmartCache Nat :=
  (((SmartCache.empty exC5cfg).set "product:1" 1 none 0).set "product:2" 2
     none 0).set "customer:9" 3 none 0

/-- C7: `invalidatePattern` deletes exactly the stored entries whose key
contains the pattern as a literal substring, keeps all others in order, and
returns the number removed; `strIncludes` means literal-substring occurrence;
and concretely scenario D removes the two `product:*` keys and returns 2. -/
theorem invalidatePattern_spec :
    (∀ (T : Type) (c : SmartCache T) (pattern : String),
      (invalidatePattern c pattern).1 =
        (c.cache.filter (fun p => strIncludes p.1 pattern)).length ∧
      (invalidatePattern c pattern).2.cache =
        c.cache.filter (fun p => !(strIncludes p.1 pattern))) ∧
    (∀ (key pattern : String),
      strIncludes key pattern = true ↔
        ∃ l r, l ++ pattern.data ++ r = key.data) ∧
    ((invalidatePattern exC7c "product").1 = 2 ∧
     (invalidatePattern exC7c "product").2.keysList = ["customer:9"]) := by
  refine ⟨?_, ?_, by decide, by decide⟩
  · intro T c pattern
    constructor
    · rw [invalidatePattern, invalidateLoop_count]
      rw [Nat.zero_add, SmartCache.keysList, length_filter_map_fst]
    · rw [invalidatePattern, invalidateLoop_cache, foldIfDelete, foldDeleteAll]
      refine List.filter_congr ?_
      intro p hp
      have hmem : p.1 ∈ c.cache.map Prod.fst := List.mem_map.2 ⟨p, hp, rfl⟩
      by_cases hs : strIncludes p.1 pattern = true
      · have hin : p.1 ∈ (c.keysList).filter (fun k => strIncludes k pattern) :=
          List.mem_filter.2 ⟨hmem, hs⟩
        simp [hin, hs]
      · have hnin : p.1 ∉ (c.keysList).filter (fun k => strIncludes k pattern) := by
          intro hc
          exact hs (List.mem_filter.1 hc).2
        simp [hnin, hs]
  · intro key pattern
    simp [strIncludes, List.IsInfix]

/-! ### C8: registry idempotence -/

/-- After `getCache`, the registry maps the name to the returned instance. -/
theorem getCacheM_lookup (reg : List (String × SmartCache T)) (name : String)
    (cfg : Option ConfigOverride) :
    alGet name (getCacheM reg name cfg).2 = some (getCacheM reg name cfg).1 := by
  simp only [getCacheM]
  by_cases h : alHas name reg
  · rw [if_pos h]
    rw [alHas] at h
    cases hv : alGet name reg with
    | none => rw [hv] at h; simp at h
    | some v => rfl
  · rw [if_neg h]
    rw [alGet_alSet_self]
    rfl

/-- When the name is registered, `getCache` returns the registered instance
and leaves the registry untouched. -/
theorem getCacheM_of_has {reg : List (String × SmartCache T)} {name : String}
    (h : alHas name reg = true) (cfg : Option ConfigOverride) :
    getCacheM reg name cfg =
      ((alGet name reg).getD (SmartCache.empty (mergeConfig (cfg.getD {}))), reg) := by
  simp only [getCacheM, h, if_true]

/-- C8: calling `getCache` twice for the same name (no destroy in between)
returns the same instance, leaves the registry unchanged, and the second
call's config — hence the cache's configuration — is ignored. -/
theorem getCache_idempotent :
    ∀ (T : Type) (reg : List (String × SmartCache T)) (name : String)
      (cfg1 cfg2 : Option ConfigOverride),
      (getCacheM (getCacheM reg name cfg1).2 name cfg2).2 =
        (getCacheM reg name cfg1).2 ∧
      (getCacheM (getCacheM reg name cfg1).2 name cfg2).1 =
        (getCacheM reg name cfg1).1 ∧
      alGet name (getCacheM reg name cfg1).2 = some (getCacheM reg name cfg1).1 ∧
      (getCacheM (getCacheM reg name cfg1).2 name cfg2).1.config =
        (getCacheM reg name cfg1).1.config := by
  intro T reg name cfg1 cfg2
  have h1 := getCacheM_lookup reg name cfg1
  have hhas1 : alHas name (getCacheM reg name cfg1).2 = true := by
    rw [alHas, h1]
    rfl
  have h2 : getCacheM (getCacheM reg name cfg1).2 name cfg2 =
      ((alGet name (getCacheM reg name cfg1).2).getD
         (SmartCache.empty (mergeConfig (cfg2.getD {}))),
       (getCacheM reg name cfg1).2) :=
    getCacheM_of_has hhas1 cfg2
  rw [h2]
  refine ⟨rfl, ?_, h1, ?_⟩
  · rw [h1]
    rfl
  · rw [h1]
    rfl

/-- `updateHitRate` only touches the `hitRate` field. -/
theorem updateHitRate_totalSize (s : CacheStats) :
    (updateHitRate s).totalSize = s.totalSize := rfl

/-! ### C9: lazy expiry leaves `totalSize` stale -/

/-- A cache with one live and one expired entry (written at t=0 with ttls
1000 and 3), stats in sync. -/
def exC9c : SmartCache Nat :=
  ((SmartCache.empty exC5cfg).set "live" 1 none 0).set "stale" 2 (some 3) 0

/-- C9: removals by lazy expiry in `get`/`has` do not touch `totalSize`, so a
previously in-sync `totalSize` exceeds `size()` by one afterwards; whereas
`set`, successful `delete`, the cleanup sweep and `clear` all leave
`totalSize` equal to the backing-map size. -/
theorem lazy_expiry_totalSize_frame :
    (∀ (T : Type) (c : SmartCache T) (key : String) (e : CacheEntry T) (now : Nat),
      alGet key c.cache = some e → isExpired now e = true →
      (c.get key now).2.stats.totalSize = c.stats.totalSize ∧
      (c.stats.totalSize = c.cache.length → keysNodup c.cache →
        (c.get key now).2.stats.totalSize = (c.get key now).2.cache.length + 1)) ∧
    (∀ (T : Type) (c : SmartCache T) (key : String) (e : CacheEntry T) (now : Nat),
      alGet key c.cache = some e → isExpired now e = true →
      (c.has key now).2.stats.totalSize = c.stats.totalSize ∧
      (c.stats.totalSize = c.cache.length → keysNodup c.cache →
        (c.has key now).2.stats.totalSize = (c.has key now).2.cache.length + 1)) ∧
    (∀ (T : Type) (c : SmartCache T) (key : String) (value : T)
        (ttl : Option Nat) (now : Nat),
      (c.set key value ttl now).stats.totalSize =
        (c.set key value ttl now).cache.length) ∧
    (∀ (T : Type) (c : SmartCache T) (key : String),
      alHas key c.cache = true →
      (c.delete key).2.stats.totalSize = (c.delete key).2.cache.length) ∧
    (∀ (T : Type) (c : SmartCache T) (now : Nat),
      (c.cleanup now).stats.totalSize = (c.cleanup now).cache.length) ∧
    (∀ (T : Type) (c : SmartCache T),
      c.clear.stats.totalSize = c.clear.cache.length) := by
  refine ⟨?_, ?_, ?_, ?_, ?_, ?_⟩
  · intro T c key e now h hexp
    rw [get_eq_expired h hexp]
    refine ⟨rfl, ?_⟩
    intro hsync hn
    have hmem : key ∈ c.cache.map Prod.fst :=
      (alGet_isSome_iff key c.cache).1 (by rw [h]; rfl)
    have := length_alDelete hn hmem
    simp only [updateHitRate_totalSize]
    omega
  · intro T c key e now h hexp
    rw [has_eq_expired h hexp]
    refine ⟨rfl, ?_⟩
    intro hsync hn
    have hmem : key ∈ c.cache.map Prod.fst :=
      (alGet_isSome_iff key c.cache).1 (by rw [h]; rfl)
    have := length_alDelete hn hmem
    simp only
    omega
  · intro T c key value ttl now
    by_cases hcond : c.config.maxSize ≤ c.cache.length ∧ alHas key c.cache = false
    · obtain ⟨hcap, hhas⟩ := hcond
      rw [set_evicting c key value ttl now hcap hhas]
    · rw [set_not_evicting c key value ttl now hcond]
  · intro T c key h
    rw [SmartCache.delete, if_pos h]
  · intro T c now
    exact cleanup_totalSize c now
  · intro T c
    rfl

/-- Witness for C9: the expired entry of the concrete two-entry cache removed
via `get` and via `has`, and a successful `delete` of the live entry. -/
theorem lazy_expiry_totalSize_frame_witness :
    ((exC9c.get "stale" 5).2.stats.totalSize = exC9c.stats.totalSize ∧
     (exC9c.stats.totalSize = exC9c.cache.length → keysNodup exC9c.cache →
       (exC9c.get "stale" 5).2.stats.totalSize =
         (exC9c.get "stale" 5).2.cache.length + 1)) ∧
    ((exC9c.has "stale" 5).2.stats.totalSize = exC9c.stats.totalSize ∧
     (exC9c.stats.totalSize = exC9c.cache.length → keysNodup exC9c.cache →
       (exC9c.has "stale" 5).2.stats.totalSize =
         (exC9c.has "stale" 5).2.cache.length + 1)) ∧
    ((exC9c.delete "live").2.stats.totalSize = (exC9c.delete "live").2.cache.length) :=
  ⟨lazy_expiry_totalSize_frame.1 Nat exC9c "stale"
     (mkEntry 2 exC9c.config (some 3) 0) 5 (by decide) (by decide),
   lazy_expiry_totalSize_frame.2.1 Nat exC9c "stale"
     (mkEntry 2 exC9c.config (some 3) 0) 5 (by decide) (by decide),
   lazy_expiry_totalSize_frame.2.2.2.1 Nat exC9c "live" (by decide)⟩

/-! ### C10: a stored null is indistinguishable from a miss -/

/-- On the else-path (observed value `null`), `getWithCacheJS` invokes the
loader. -/
theorem gwcJS_miss {c : SmartCache JSVal}
    (h : jsGetVal (c.get key now).1 = JSVal.null) (q : Except E JSVal)
    (ttl : Option Nat) :
    (getWithCacheJS key c q ttl now).2.2 = 1 := by
  simp only [getWithCacheJS, h]
  rw [if_neg (by simp)]
  cases q <;> rfl

/-- C10: at the public interface a stored `null` cannot be told apart from a
miss: `get` observably returns `null` for an absent key and for a present,
unexpired entry whose datum is `null`; consequently after `set(k, null)`
every `getWithCache` call takes the miss path and invokes the loader again
even though the entry is present and unexpired. -/
theorem null_value_indistinguishable :
    (∀ (c : SmartCache JSVal) (key : String) (now : Nat),
      alGet key c.cache = none → jsGetVal (c.get key now).1 = JSVal.null) ∧
    (∀ (c : SmartCache JSVal) (key : String) (e : CacheEntry JSVal) (now : Nat),
      alGet key c.cache = some e → isExpired now e = false →
      e.data = JSVal.null → jsGetVal (c.get key now).1 = JSVal.null) ∧
    (∀ (E : Type) (c : SmartCache JSVal) (key : String) (ttl : Option Nat)
        (now now' : Nat) (q : Except E JSVal) (ttl2 : Option Nat),
      now' - now ≤ entryTtlOf c.config ttl →
      alGet key (c.set key JSVal.null ttl now).cache =
        some (mkEntry JSVal.null c.config ttl now) ∧
      isExpired now' (mkEntry JSVal.null c.config ttl now) = false ∧
      (getWithCacheJS key (c.set key JSVal.null ttl now) q ttl2 now').2.2 = 1) := by
  refine ⟨?_, ?_, ?_⟩
  · intro c key now h
    rw [get_eq_absent now h]
    rfl
  · intro c key e now h hexp hdata
    rw [get_fst_live h hexp, jsGetVal, hdata]
    rfl
  · intro E c key ttl now now' q ttl2 httl
    have hal := set_alGet_self c key JSVal.null ttl now
    have hexp : isExpired now' (mkEntry JSVal.null c.config ttl now) = false := by
      simp only [isExpired, mkEntry, decide_eq_false_iff_not, not_lt]
      exact httl
    refine ⟨hal, hexp, ?_⟩
    refine gwcJS_miss ?_ q ttl2
    rw [get_fst_live hal hexp]
    rfl

/-- Witness for C10: an empty cache, `set("k", null, ttl 100)` at t=0 read at
t=50 — the entry is present and unexpired, yet the loader is invoked. -/
theorem null_value_indistinguishable_witness :
    jsGetVal ((SmartCache.empty exC5cfg : SmartCache JSVal).get "missing" 0).1 =
      JSVal.null ∧
    (alGet "k" ((SmartCache.empty exC5cfg : SmartCache JSVal).set "k" JSVal.null
        (some 100) 0).cache =
      some (mkEntry JSVal.null (SmartCache.empty exC5cfg : SmartCache JSVal).config
        (some 100) 0) ∧
     isExpired 50 (mkEntry JSVal.null
        (SmartCache.empty exC5cfg : SmartCache JSVal).config (some 100) 0) = false ∧
     (getWithCacheJS "k" ((SmartCache.empty exC5cfg : SmartCache JSVal).set "k"
        JSVal.null (some 100) 0) (Except.ok (JSVal.num 5) : Except Unit JSVal)
        none 50).2.2 = 1) :=
  ⟨null_value_indistinguishable.1 (SmartCache.empty exC5cfg) "missing" 0 (by decide),
   null_value_indistinguishable.2.2 Unit (SmartCache.empty exC5cfg) "k" (some 100)
     0 50 (Except.ok (JSVal.num 5)) none (by decide)⟩
